import Mathlib

/-!
Verification of the Serialization repository (src/Array.h, src/HDLC.cc) against its
specification. Scalars of byte-width w are modelled as natural numbers, with the
wrapping of C unsigned arithmetic made explicit through `% 2 ^ (8 * w)`. Iterators
are modelled as functions from an index to an element, and std::array values as
lists. Compile-time static_assert rejections are modelled as `Option` guards.
-/

namespace RangedArray

/-- Embedding of RangedArray::array(first, last, index_sequence) from src/Array.h
(lines 89-101). The iterator is a function from index to element, `range` is the
measured absolute distance between the two iterators, `size` is the number of
indices in the pack, and `maxVal` stands for the maximum representable value of
the element type. When `range <= size` the function expands to the elements
first[0], ..., first[size-1]; otherwise it expands to `size` copies of `maxVal`. -/
def arrayBuild (first : Nat → α) (range size : Nat) (maxVal : α) : List α :=
  if range ≤ size then (List.range size).map first
  else List.replicate size maxVal

/-- Embedding of the iterator-level merge (src/Array.h lines 140-148): the result
expands the full index packs of both iterators, A[0..m) followed by B[0..n). -/
def mergeIter (A : Nat → α) (m : Nat) (B : Nat → α) (n : Nat) : List α :=
  (List.range m).map A ++ (List.range n).map B

/-- Embedding of the two-array merge (src/Array.h lines 170-178): dispatches to the
iterator merge with the full index sequences of both arrays. -/
def merge [Inhabited α] (A B : List α) : List α :=
  mergeIter (fun i => A.getD i default) A.length (fun i => B.getD i default) B.length

/-- Embedding of the variadic merge (src/Array.h lines 156-160 and 190-196): the
one-argument form returns its argument, and the n-argument form recurses on
merge(merge(A, B), rest...). -/
def mergeMany [Inhabited α] (A : List α) : List (List α) → List α
  | [] => A
  | B :: rest => mergeMany (merge A B) rest

end RangedArray

namespace ByteArray

/-- Embedding of byteArray(value) in native order (src/Array.h lines 251-256): the
sizeof(T) bytes of the little-endian memory image of the value, least significant
first, read through RangedArray::array with distance equal to the requested size.
255 is the maximum of the byte element type uint8_t. -/
def byteArrayVal (w : Nat) (v : Nat) : List Nat :=
  RangedArray.arrayBuild (fun i => (v >>> (8 * i)) % 256) w w 255

/-- Embedding of byteArray with reversal enabled (src/Array.h lines 263-268): the
same bytes read through the reverse iterator, most significant first. -/
def reverseByteArrayVal (w : Nat) (v : Nat) : List Nat :=
  RangedArray.arrayBuild (fun i => (v >>> (8 * (w - 1 - i))) % 256) w w 255

/-- Embedding of byteArray(first, index_sequence) over an iterator of scalars
(src/Array.h lines 276-280): the variadic merge of the per-element byte splits. -/
def byteArrayIter (w : Nat) (first : Nat → Nat) (size : Nat) : List Nat :=
  match (List.range size).map (fun i => byteArrayVal w (first i)) with
  | [] => []
  | b :: rest => RangedArray.mergeMany b rest

/-- Embedding of byteArray over a std::array of scalars (src/Array.h lines 300-304). -/
def byteArrayList (w : Nat) (arr : List Nat) : List Nat :=
  byteArrayIter w (fun i => arr.getD i 0) arr.length

/-- Embedding of reverseByteArray over a std::array (src/Array.h lines 343-347):
byteArray applied to RangedArray::array built from the reverse iterators crbegin
and crend, whose element at index i is the element at index size - 1 - i. -/
def reverseByteArrayList (w : Nat) (arr : List Nat) : List Nat :=
  byteArrayList w (RangedArray.arrayBuild (fun i => arr.getD (arr.length - 1 - i) 0)
    arr.length arr.length (2 ^ (8 * w) - 1))

/-- Embedding of getInteger over a byte iterator and an index sequence
(src/Array.h lines 368-381): little-endian accumulation of count bytes into a
value of a type of byte-width wT; each += wraps modulo 2 ^ (8 * wT), matching
C unsigned arithmetic after integer promotion. No width check is performed. -/
def getIntegerIter (wT : Nat) (bytes : Nat → Nat) (count : Nat) : Nat :=
  (List.range count).foldl (fun acc i => (acc + (bytes i) <<< (8 * i)) % 2 ^ (8 * wT)) 0

/-- Embedding of getInteger over a whole std::array of bytes (src/Array.h lines
403-408): the static_assert that sizeof(T) is at least the array size is modelled
as a guard returning none when violated. -/
def getIntegerArr (wT : Nat) (arr : List Nat) : Option Nat :=
  if arr.length ≤ wT then some (getIntegerIter wT (fun i => arr.getD i 0) arr.length)
  else none

/-- Embedding of the scalar getInteger specialization (src/Array.h lines 417-424):
returns static_cast of value right-shifted by 8 * offset bits; the static_assert
that the offset does not exceed sizeof(Tval) is modelled as a guard. wT and wVal
are the byte-widths of the destination and source types. -/
def getIntegerScalar (wT wVal : Nat) (value offset : Nat) : Option Nat :=
  if offset ≤ wVal then some ((value >>> (8 * offset)) % 2 ^ (8 * wT)) else none

/-- Modelled from the spec: the little-endian accumulation of the Byte Assembler,
the sum of byte[i] shifted left by 8 * i for i in [0, count), written directly
from the words of the spec for comparison with the getInteger embedding. -/
def assembleSpec (bytes : Nat → Nat) (count : Nat) : Nat :=
  ((List.range count).map (fun i => (bytes i) <<< (8 * i))).sum

end ByteArray

/-- Embedding of BasicHeader::serialize from src/HDLC.cc: the three-value byteArray
of the flag byte 0xFE, the address byte and the control byte, which the variadic
dispatch flattens into the merge of the three one-byte splits. -/
def BasicHeader.serialize (address control : Nat) : List Nat :=
  RangedArray.merge
    (RangedArray.merge (ByteArray.byteArrayVal 1 0xFE) (ByteArray.byteArrayVal 1 address))
    (ByteArray.byteArrayVal 1 control)

/-- Embedding of CRC16 from src/HDLC.cc (lines 38-42): reads the first two data
bytes as a 16-bit little-endian integer and adds 0x4E; the uint16_t return type
wraps modulo 2 ^ 16. -/
def CRC16 (data : List Nat) : Nat :=
  (ByteArray.getIntegerIter 2 (fun i => data.getD i 0) 2 + 0x4E) % 2 ^ 16

/-- Embedding of BasicFooter::serialize from src/HDLC.cc: the byteArray of the
16-bit checksum followed by the flag byte 0xFE. -/
def BasicFooter.serialize (fcs : Nat) : List Nat :=
  RangedArray.merge (ByteArray.byteArrayVal 2 fcs) (ByteArray.byteArrayVal 1 0xFE)

/-- Embedding of HDLC::serialize from src/HDLC.cc (lines 60-76): the variadic merge
of the header, data and footer serializations, where the data serializes to itself
and the footer checksum is computed from the data bytes at construction. -/
def HDLC.serialize (address control : Nat) (info : List Nat) : List Nat :=
  RangedArray.mergeMany (BasicHeader.serialize address control)
    [info, BasicFooter.serialize (CRC16 info)]

/-- Expanding the full index pack of a list reproduces the list. -/
lemma map_getD_range (l : List α) (d : α) :
    (List.range l.length).map (fun i => l.getD i d) = l := by
  induction l with
  | nil => simp
  | cons a t ih =>
    simp only [List.length_cons, List.range_succ_eq_map, List.map_cons, List.map_map]
    refine congrArg₂ _ rfl ?_
    simpa [Function.comp_def, List.getD, List.getElem?_cons_succ] using ih

/-- The merge of two lists is their concatenation. -/
lemma merge_eq_append [Inhabited α] (A B : List α) : RangedArray.merge A B = A ++ B := by
  unfold RangedArray.merge RangedArray.mergeIter
  rw [map_getD_range, map_getD_range]

/-- The variadic merge is the left fold of the binary merge. -/
lemma mergeMany_eq_foldl [Inhabited α] (L : List (List α)) (A : List α) :
    RangedArray.mergeMany A L = L.foldl RangedArray.merge A := by
  induction L generalizing A with
  | nil => rfl
  | cons B t ih => simpa [RangedArray.mergeMany] using ih (RangedArray.merge A B)

/-- A list element read through getD at an in-bounds index is the element itself. -/
lemma getD_eq_getElem_of_lt (l : List α) (d : α) (i : Nat) (h : i < l.length) :
    l.getD i d = l[i] := by
  simp [List.getD, List.getElem?_eq_getElem h]

/-- Reading getD through a map over List.range at an in-bounds index. -/
lemma getD_map_range (f : Nat → α) (n i : Nat) (d : α) (h : i < n) :
    ((List.range n).map f).getD i d = f i := by
  have hlen : i < ((List.range n).map f).length := by simpa using h
  rw [getD_eq_getElem_of_lt _ _ _ hlen]
  simp

/-- A fold that reduces modulo M at every step equals the fold of the plain sums,
reduced modulo M once at the end. -/
lemma foldl_mod_eq_sum_mod (M : Nat) (f : Nat → Nat) (l : List Nat) (a : Nat) :
    l.foldl (fun acc i => (acc + f i) % M) (a % M) = (a + (l.map f).sum) % M := by
  induction l generalizing a with
  | nil => simp
  | cons x t ih =>
    simp only [List.foldl_cons, List.map_cons, List.sum_cons]
    rw [Nat.mod_add_mod, ih (a + f x), Nat.add_assoc]

/-- The iterator getInteger is the specification accumulation reduced modulo the
destination width. -/
lemma getIntegerIter_eq_spec_mod (wT : Nat) (bytes : Nat → Nat) (count : Nat) :
    ByteArray.getIntegerIter wT bytes count =
      ByteArray.assembleSpec bytes count % 2 ^ (8 * wT) := by
  unfold ByteArray.getIntegerIter ByteArray.assembleSpec
  rw [show (0 : Nat) = 0 % 2 ^ (8 * wT) from (Nat.zero_mod _).symm,
    foldl_mod_eq_sum_mod, Nat.zero_add]

/-- One power-of-two step: 2 ^ (8 * (w + 1)) = 256 * 2 ^ (8 * w). -/
lemma pow_eight_succ (w : Nat) : (2 : Nat) ^ (8 * (w + 1)) = 256 * 2 ^ (8 * w) := by
  rw [Nat.mul_succ, Nat.pow_add, Nat.mul_comm]

/-- The little-endian byte decomposition sums back to the value reduced modulo the
covered width. -/
lemma sum_bytes_eq_mod (w v : Nat) :
    ((List.range w).map (fun i => ((v >>> (8 * i)) % 256) <<< (8 * i))).sum =
      v % 2 ^ (8 * w) := by
  have hshift : ∀ u i : Nat, ((u >>> (8 * i)) % 256) <<< (8 * i) =
      u / 2 ^ (8 * i) % 256 * 2 ^ (8 * i) := by
    intro u i
    rw [Nat.shiftLeft_eq, Nat.shiftRight_eq_div_pow]
  induction w generalizing v with
  | zero => simp [Nat.mod_one]
  | succ w ih =>
    rw [List.range_succ_eq_map, List.map_cons, List.sum_cons, List.map_map]
    have hpt : ((List.range w).map
        ((fun i => ((v >>> (8 * i)) % 256) <<< (8 * i)) ∘ Nat.succ)).sum =
        ((List.range w).map
          (fun i => 256 * ((((v / 256) >>> (8 * i)) % 256) <<< (8 * i)))).sum := by
      refine congrArg _ (List.map_congr_left ?_)
      intro i _
      simp only [Function.comp_apply, hshift]
      have h8 : 8 * Nat.succ i = 8 + 8 * i := by omega
      have h256 : (2 : Nat) ^ 8 = 256 := by norm_num
      rw [h8, Nat.pow_add, ← Nat.div_div_eq_div_mul, h256]
      ring
    rw [hpt, List.sum_map_mul_left, ih (v / 256), hshift]
    simp only [Nat.mul_zero, Nat.pow_zero, Nat.div_one, Nat.mul_one]
    rw [pow_eight_succ, Nat.mod_mul]

/-- The native byte split is the plain map of bytes, least significant first. -/
lemma byteArrayVal_eq_map (w v : Nat) :
    ByteArray.byteArrayVal w v = (List.range w).map (fun i => (v >>> (8 * i)) % 256) := by
  unfold ByteArray.byteArrayVal RangedArray.arrayBuild
  rw [if_pos (Nat.le_refl w)]

/-- Core round-trip: assembling the native byte split of a value of byte-width w
reproduces the value when it fits in w bytes. -/
lemma getIntegerArr_byteArrayVal (w v : Nat) (h : v < 2 ^ (8 * w)) :
    ByteArray.getIntegerArr w (ByteArray.byteArrayVal w v) = some v := by
  unfold ByteArray.getIntegerArr
  rw [byteArrayVal_eq_map]
  rw [if_pos (by simp)]
  rw [getIntegerIter_eq_spec_mod]
  unfold ByteArray.assembleSpec
  simp only [List.length_map, List.length_range]
  have hpt : (List.range w).map
      (fun i => (((List.range w).map (fun j => (v >>> (8 * j)) % 256)).getD i 0) <<< (8 * i)) =
      (List.range w).map (fun i => ((v >>> (8 * i)) % 256) <<< (8 * i)) := by
    refine List.map_congr_left ?_
    intro i hi
    rw [getD_map_range _ _ _ _ (List.mem_range.mp hi)]
  rw [hpt, sum_bytes_eq_mod, Nat.mod_eq_of_lt h, Nat.mod_eq_of_lt h]

/-- The reversed byte split of a scalar is the reverse of its native byte split. -/
lemma reverseByteArrayVal_eq_reverse (w v : Nat) :
    ByteArray.reverseByteArrayVal w v = (ByteArray.byteArrayVal w v).reverse := by
  rw [byteArrayVal_eq_map]
  unfold ByteArray.reverseByteArrayVal RangedArray.arrayBuild
  rw [if_pos (Nat.le_refl w)]
  apply List.ext_getElem
  · simp
  · intro i h1 h2
    simp [List.getElem_reverse]

/-- The specification accumulation of n genuine bytes fits in n bytes. -/
lemma assembleSpec_lt (bytes : Nat → Nat) (n : Nat) (hb : ∀ i, i < n → bytes i < 256) :
    ByteArray.assembleSpec bytes n < 2 ^ (8 * n) := by
  induction n with
  | zero => simp [ByteArray.assembleSpec]
  | succ n ih =>
    unfold ByteArray.assembleSpec at ih ⊢
    rw [List.range_succ, List.map_append, List.sum_append]
    simp only [List.map_cons, List.map_nil, List.sum_cons, List.sum_nil, Nat.add_zero]
    have h1 := ih (fun i hi => hb i (by omega))
    have h2 : bytes n < 256 := hb n (by omega)
    have h3 : (bytes n) <<< (8 * n) = bytes n * 2 ^ (8 * n) := Nat.shiftLeft_eq _ _
    rw [h3, pow_eight_succ]
    have h5 : bytes n * 2 ^ (8 * n) ≤ 255 * 2 ^ (8 * n) :=
      Nat.mul_le_mul (by omega) (Nat.le_refl _)
    omega

/-- The array getInteger returns exactly the specification value when the
destination type is wide enough and the inputs are genuine bytes. -/
lemma getIntegerArr_eq_spec (wT : Nat) (arr : List Nat) (hw : arr.length ≤ wT)
    (hb : ∀ b ∈ arr, b < 256) :
    ByteArray.getIntegerArr wT arr =
      some (ByteArray.assembleSpec (fun i => arr.getD i 0) arr.length) := by
  unfold ByteArray.getIntegerArr
  rw [if_pos hw, getIntegerIter_eq_spec_mod]
  have hlt : ByteArray.assembleSpec (fun i => arr.getD i 0) arr.length
      < 2 ^ (8 * arr.length) := by
    apply assembleSpec_lt
    intro i hi
    rw [getD_eq_getElem_of_lt _ _ _ hi]
    exact hb _ (List.getElem_mem _)
  have hle : (2 : Nat) ^ (8 * arr.length) ≤ 2 ^ (8 * wT) :=
    Nat.pow_le_pow_right (by omega) (by omega)
  rw [Nat.mod_eq_of_lt (lt_of_lt_of_le hlt hle)]

/-- The builder applied to the reverse iterators of a list yields the reversed list. -/
lemma arrayBuild_rev (arr : List α) (d : α) (m : α) :
    RangedArray.arrayBuild (fun i => arr.getD (arr.length - 1 - i) d)
      arr.length arr.length m = arr.reverse := by
  unfold RangedArray.arrayBuild
  rw [if_pos (Nat.le_refl _)]
  apply List.ext_getElem
  · simp
  · intro i h1 h2
    simp only [List.getElem_map, List.getElem_range, List.getElem_reverse]
    have hi : i < arr.length := by simpa using h1
    have hlt : arr.length - 1 - i < arr.length := by omega
    rw [getD_eq_getElem_of_lt _ _ _ hlt]

/-- The variadic merge prepends its first argument to the concatenation of the rest. -/
lemma mergeMany_eq_append_flatten [Inhabited α] (L : List (List α)) (A : List α) :
    RangedArray.mergeMany A L = A ++ L.flatten := by
  induction L generalizing A with
  | nil => simp [RangedArray.mergeMany]
  | cons B t ih =>
    have hstep : RangedArray.mergeMany A (B :: t) =
        RangedArray.mergeMany (RangedArray.merge A B) t := rfl
    rw [hstep, ih, merge_eq_append, List.flatten_cons, List.append_assoc]

/-- byteArray over an array of scalars is the concatenation of the per-element
native byte splits, in element order. -/
lemma byteArrayList_eq_flatten (w : Nat) (arr : List Nat) :
    ByteArray.byteArrayList w arr = (arr.map (ByteArray.byteArrayVal w)).flatten := by
  unfold ByteArray.byteArrayList ByteArray.byteArrayIter
  have hm : (List.range arr.length).map (fun i => ByteArray.byteArrayVal w (arr.getD i 0))
      = arr.map (ByteArray.byteArrayVal w) := by
    calc (List.range arr.length).map (fun i => ByteArray.byteArrayVal w (arr.getD i 0))
        = ((List.range arr.length).map (fun i => arr.getD i 0)).map
            (ByteArray.byteArrayVal w) := by rw [List.map_map]; rfl
      _ = arr.map (ByteArray.byteArrayVal w) := by rw [map_getD_range]
  rw [hm]
  cases h : arr.map (ByteArray.byteArrayVal w) with
  | nil => simp
  | cons b rest =>
    show RangedArray.mergeMany b rest = (b :: rest).flatten
    rw [mergeMany_eq_append_flatten, List.flatten_cons]

/-- reverseByteArray over an array reverses the element order and then splits each
element in native order. -/
lemma reverseByteArrayList_eq (w : Nat) (arr : List Nat) :
    ByteArray.reverseByteArrayList w arr = ByteArray.byteArrayList w arr.reverse := by
  unfold ByteArray.reverseByteArrayList
  rw [arrayBuild_rev]

/-- Claim C1: the sequence builder is asked for more elements than the measured
iterator distance provides (distance 2, requested length 4). The specification
requires an explicit failure; the code instead returns a fully populated array,
reading the indices 2 and 3 past the provided range, through a return type with
no error alternative at all. This theorem evaluates the code at that failing
input and exhibits the silently returned value. -/
theorem C1_build_short_range_returns_value :
    RangedArray.arrayBuild (fun i => i) 2 4 255 = [0, 1, 2, 3] := by
  decide

/-- Claim C2: for the frame with Header address 0xCE, control 0x01 and the payload
bytes DE AD BE EF FA CE B0 A7, the footer checksum is the little-endian 16-bit
read of the first two payload bytes plus 0x4E, which is 0xAE2C, and the frame
serializes to exactly the 14 bytes FE CE 01 DE AD BE EF FA CE B0 A7 2C AE FE,
the merge of the header, payload and footer serializations. -/
theorem C2_frame_serialization :
    CRC16 [0xDE, 0xAD, 0xBE, 0xEF, 0xFA, 0xCE, 0xB0, 0xA7] = 0xAE2C ∧
    HDLC.serialize 0xCE 0x01 [0xDE, 0xAD, 0xBE, 0xEF, 0xFA, 0xCE, 0xB0, 0xA7] =
      [0xFE, 0xCE, 0x01, 0xDE, 0xAD, 0xBE, 0xEF, 0xFA, 0xCE, 0xB0, 0xA7, 0x2C, 0xAE, 0xFE] ∧
    HDLC.serialize 0xCE 0x01 [0xDE, 0xAD, 0xBE, 0xEF, 0xFA, 0xCE, 0xB0, 0xA7] =
      BasicHeader.serialize 0xCE 0x01 ++ [0xDE, 0xAD, 0xBE, 0xEF, 0xFA, 0xCE, 0xB0, 0xA7] ++
        BasicFooter.serialize (CRC16 [0xDE, 0xAD, 0xBE, 0xEF, 0xFA, 0xCE, 0xB0, 0xA7]) := by
  refine ⟨by decide, by decide, by decide⟩

/-- Claim C3: for every scalar value v of byte-width w, assembling the native-order
byte split of v back over w bytes reproduces v exactly. -/
theorem C3_native_roundtrip (w v : Nat) (h : v < 2 ^ (8 * w)) :
    ByteArray.getIntegerArr w (ByteArray.byteArrayVal w v) = some v :=
  getIntegerArr_byteArrayVal w v h

theorem C3_native_roundtrip_witness :
    0xBEEF < 2 ^ (8 * 2) ∧
    ByteArray.getIntegerArr 2 (ByteArray.byteArrayVal 2 0xBEEF) = some 0xBEEF :=
  ⟨by decide, C3_native_roundtrip 2 0xBEEF (by decide)⟩

/-- Claim C4, counterexample: the iterator form of getInteger (src/Array.h lines
390-394) carries no width check, so a call assembling two byte units into a type
of byte-width 1 is not rejected: it returns the silently truncated value 1,
although the untruncated little-endian accumulation of the bytes 01 01 is 0x0101.
This refutes the claim that every such call is rejected before accumulation and
that silent truncation never occurs. -/
theorem C4_counterexample_iterator_truncates :
    ByteArray.getIntegerIter 1 (fun i => [1, 1].getD i 0) 2 = 1 ∧
    ByteArray.assembleSpec (fun i => [1, 1].getD i 0) 2 = 0x0101 := by
  decide

/-- Claim C4, amended: only the whole-array form of getInteger rejects a byte count
exceeding the byte-width of the destination type (modelled as none); the
iterator/count form performs the accumulation with no check, reducing modulo
2 ^ bit-width at every step; and under the precondition that the count does not
exceed the byte-width, the array form returns exactly the little-endian
accumulation of the spec. -/
theorem C4_assemble_amended (wT : Nat) (arr : List Nat) (hb : ∀ b ∈ arr, b < 256) :
    (arr.length ≤ wT → ByteArray.getIntegerArr wT arr =
      some (ByteArray.assembleSpec (fun i => arr.getD i 0) arr.length)) ∧
    (wT < arr.length → ByteArray.getIntegerArr wT arr = none) ∧
    ByteArray.getIntegerIter wT (fun i => arr.getD i 0) arr.length =
      ByteArray.assembleSpec (fun i => arr.getD i 0) arr.length % 2 ^ (8 * wT) := by
  refine ⟨fun hw => getIntegerArr_eq_spec wT arr hw hb, fun hw => ?_,
    getIntegerIter_eq_spec_mod _ _ _⟩
  unfold ByteArray.getIntegerArr
  rw [if_neg (by omega)]

theorem C4_assemble_amended_witness :
    (∀ b ∈ [0xDE, 0xAD], b < 256) ∧
    ByteArray.getIntegerArr 2 [0xDE, 0xAD] =
      some (ByteArray.assembleSpec (fun i => [0xDE, 0xAD].getD i 0) 2) :=
  ⟨by decide, (C4_assemble_amended 2 [0xDE, 0xAD] (by decide)).1 (by decide)⟩

/-- Claim C5: merging two fixed sequences of the same element type yields a
sequence of length m + n whose first m elements are A in order and whose last n
elements are B in order. -/
theorem C5_merge_length_content [Inhabited α] (A B : List α) :
    (RangedArray.merge A B).length = A.length + B.length ∧
    (RangedArray.merge A B).take A.length = A ∧
    (RangedArray.merge A B).drop A.length = B := by
  rw [merge_eq_append]
  refine ⟨by simp, by simp, by simp⟩

/-- Claim C6: merge is associative, and the variadic merge over more than two
sequences equals the pairwise left-to-right fold of the binary merge. -/
theorem C6_merge_assoc_variadic [Inhabited α] (A B C : List α) (rest : List (List α)) :
    RangedArray.merge (RangedArray.merge A B) C =
      RangedArray.merge A (RangedArray.merge B C) ∧
    RangedArray.mergeMany A (B :: C :: rest) =
      (B :: C :: rest).foldl RangedArray.merge A := by
  exact ⟨by simp [merge_eq_append], mergeMany_eq_foldl _ _⟩

/-- Claim C7: the reversed byte split of a scalar equals its native byte sequence
in opposite order, and assembling those bytes read most-significant-first
reproduces the value. -/
theorem C7_reversed_roundtrip (w v : Nat) (h : v < 2 ^ (8 * w)) :
    ByteArray.reverseByteArrayVal w v = (ByteArray.byteArrayVal w v).reverse ∧
    ByteArray.getIntegerArr w ((ByteArray.reverseByteArrayVal w v).reverse) = some v := by
  refine ⟨reverseByteArrayVal_eq_reverse w v, ?_⟩
  rw [reverseByteArrayVal_eq_reverse, List.reverse_reverse]
  exact getIntegerArr_byteArrayVal w v h

theorem C7_reversed_roundtrip_witness :
    0xCAFE < 2 ^ (8 * 2) ∧
    (ByteArray.reverseByteArrayVal 2 0xCAFE = (ByteArray.byteArrayVal 2 0xCAFE).reverse ∧
      ByteArray.getIntegerArr 2 ((ByteArray.reverseByteArrayVal 2 0xCAFE).reverse) =
        some 0xCAFE) :=
  ⟨by decide, C7_reversed_roundtrip 2 0xCAFE (by decide)⟩

/-- Claim C8: the scalar extraction getInteger equals the source value logically
right-shifted by 8 * offset bits and then narrowed to the destination byte-width
whenever the offset does not exceed the byte-width of the source, and is rejected
otherwise; the integral-type requirements are static_asserts on the types
themselves. -/
theorem C8_extract_shift_narrow (wT wVal v offset : Nat) :
    ByteArray.getIntegerScalar wT wVal v offset =
      if offset ≤ wVal then some (v / 2 ^ (8 * offset) % 2 ^ (8 * wT)) else none := by
  unfold ByteArray.getIntegerScalar
  rw [Nat.shiftRight_eq_div_pow]

/-- Claim C9: when the measured iterator distance strictly exceeds the requested
output length n, the builder returns n copies of the maximum representable value
of the element type, discarding the valid leading elements of the range. -/
theorem C9_long_range_sentinel_fill (first : Nat → α) (range n : Nat) (maxVal : α)
    (h : n < range) :
    RangedArray.arrayBuild first range n maxVal = List.replicate n maxVal := by
  unfold RangedArray.arrayBuild
  rw [if_neg (by omega)]

theorem C9_long_range_sentinel_fill_witness :
    (2 : Nat) < 4 ∧ RangedArray.arrayBuild (fun i => i) 4 2 99 = List.replicate 2 99 :=
  ⟨by decide, C9_long_range_sentinel_fill (fun i => i) 4 2 99 (by decide)⟩

/-- Claim C10: reverseByteArray over a sequence of scalars reverses only the order
of the elements, each element keeping its native least-significant-first bytes,
and its output differs from the full byte-wise reversal of byteArray on a
concrete two-element sequence of 16-bit scalars. -/
theorem C10_reverse_elements_not_bytes (w : Nat) (arr : List Nat) :
    ByteArray.reverseByteArrayList w arr =
      (arr.reverse.map (ByteArray.byteArrayVal w)).flatten ∧
    ByteArray.reverseByteArrayList 2 [0x1122, 0x3344] ≠
      (ByteArray.byteArrayList 2 [0x1122, 0x3344]).reverse := by
  constructor
  · rw [reverseByteArrayList_eq, byteArrayList_eq_flatten]
  · decide

theorem C5_merge_length_content_witness :
    (RangedArray.merge [1, 2] [3] : List Nat).length = [1, 2].length + [3].length ∧
    (RangedArray.merge [1, 2] [3] : List Nat).take [1, 2].length = [1, 2] ∧
    (RangedArray.merge [1, 2] [3] : List Nat).drop [1, 2].length = [3] :=
  C5_merge_length_content [1, 2] [3]

theorem C6_merge_assoc_variadic_witness :
    RangedArray.merge (RangedArray.merge [1] [2]) [3] =
      RangedArray.merge ([1] : List Nat) (RangedArray.merge [2] [3]) ∧
    RangedArray.mergeMany ([1] : List Nat) [[2], [3]] =
      [[2], [3]].foldl RangedArray.merge [1] :=
  C6_merge_assoc_variadic [1] [2] [3] []

theorem C8_extract_shift_narrow_witness :
    ByteArray.getIntegerScalar 1 4 0xAABBCCDD 2 =
      if 2 ≤ 4 then some (0xAABBCCDD / 2 ^ (8 * 2) % 2 ^ (8 * 1)) else none :=
  C8_extract_shift_narrow 1 4 0xAABBCCDD 2

theorem C10_reverse_elements_not_bytes_witness :
    ByteArray.reverseByteArrayList 2 [0x1122, 0x3344] =
      ([0x1122, 0x3344].reverse.map (ByteArray.byteArrayVal 2)).flatten ∧
    ByteArray.reverseByteArrayList 2 [0x1122, 0x3344] ≠
      (ByteArray.byteArrayList 2 [0x1122, 0x3344]).reverse :=
  C10_reverse_elements_not_bytes 2 [0x1122, 0x3344]
